import Mathlib

/-!
Verification development for `til::spsc` (src/inc/til/spsc.h), a bounded
single-producer single-consumer FIFO channel built on two bit-packed atomic
position words and a shared ring buffer.

The definitions below are a shallow embedding of the C++ source:

* `position_mask`, `revolution_flag`, `drop_flag` mirror the constants in
  `til::spsc::details`.
* `acquisition` mirrors `details::acquisition` and `acquisition.toBool`
  mirrors its `operator bool`.
* `acquire` mirrors `details::arc::acquire`.  The C++ wait loop re-loads the
  peer position until `(myPos ^ theirPos) != waitMask`; here one evaluation of
  `acquire` receives the peer position observed at the final load, and the
  result `.blocked` marks an observation on which the C++ code would park and
  retry rather than return.
* `uadd` is `uint32_t` addition (`begin + slots` in the source is computed
  modulo 2^32).

`pack v r d` is the analysis-side decomposition of a position word into its
value field `v`, revolution flag `r` and drop flag `d`; the lemmas relate the
bit operations of the source to this decomposition.
-/

namespace Spsc

/-- Modulus of `size_type = uint32_t` arithmetic. -/
def M32 : Nat := 2 ^ 32

/-- Addition of `uint32_t` values, wrapping modulo 2^32. -/
def uadd (a b : Nat) : Nat := (a + b) % M32

/-- Constant `details::position_mask = numeric_limits<uint32_t>::max() >> 2`. -/
def position_mask : Nat := (M32 - 1) >>> 2

/-- Constant `details::revolution_flag = 1u << 30`. -/
def revolution_flag : Nat := 1 <<< 30

/-- Constant `details::drop_flag = 1u << 31`. -/
def drop_flag : Nat := 1 <<< 31

/-- Structure `details::acquisition`: the slot range `[begin, end)` handed to one side,
plus the position word `next` to be committed on release. -/
structure acquisition where
  begin : Nat := 0
  end_ : Nat := 0
  next : Nat := 0
deriving Repr, DecidableEq

/-- Conversion `details::acquisition::operator bool`: an acquisition converts to `true`
iff its `end` field is nonzero. -/
def acquisition.toBool (a : acquisition) : Bool := a.end_ != 0

/-- Result of one evaluation of `arc::acquire` at an observed peer position:
`blocked` means the wait-loop condition held (the C++ code parks and retries),
`closed` is the empty acquisition returned when the peer has dropped, and
`range a` is a successful acquisition. -/
inductive AcquireResult where
  | blocked
  | closed
  | range (a : acquisition)
deriving Repr, DecidableEq

/-- Function `details::arc::acquire(mine, theirs, waitMask, slots)`, evaluated at the
peer position `theirPos` observed by the final acquire-ordered load of the
wait loop.  Mirrors the source line by line: the wait-loop exit test, the
drop-flag check, the wraparound clamp of `end` to `_capacity`, the clamp to
`begin + slots` (a `uint32_t` sum), and the computation of `next`. -/
def acquire (capacity myPos theirPos waitMask slots : Nat) : AcquireResult :=
  if myPos ^^^ theirPos = waitMask then
    .blocked
  else if (theirPos &&& drop_flag) ≠ 0 ∧ (waitMask ≠ 0 ∨ myPos ^^^ theirPos = drop_flag) then
    .closed
  else
    let begin := myPos &&& position_mask
    let end0 := theirPos &&& position_mask
    let end1 := if end0 > begin then end0 else capacity
    let end2 := min end1 (uadd begin slots)
    let revolution := myPos &&& revolution_flag
    let next := if end2 ≠ capacity then end2 ||| revolution else revolution ^^^ revolution_flag
    .range ⟨begin, end2, next⟩

/-- Function `arc::release(mine, acquisition)` stores `acquisition.next` into the
caller-owned position word (the notify is not modelled). -/
def release (a : acquisition) : Nat := a.next

/-- Numeric value of the revolution flag of a decomposed position word. -/
def rbit (r : Bool) : Nat := if r then revolution_flag else 0

/-- Numeric value of the drop flag of a decomposed position word. -/
def dbit (d : Bool) : Nat := if d then drop_flag else 0

/-- A position word with value field `v`, revolution flag `r`, drop flag `d`. -/
def pack (v : Nat) (r d : Bool) : Nat := v + rbit r + dbit d

lemma position_mask_eq : position_mask = 2 ^ 30 - 1 := by decide

lemma revolution_flag_eq : revolution_flag = 2 ^ 30 := by decide

lemma drop_flag_eq : drop_flag = 2 ^ 31 := by decide

lemma rbit_eq (r : Bool) : rbit r = (cond r 1 0) * 2 ^ 30 := by
  cases r <;> simp [rbit, revolution_flag_eq]

lemma dbit_eq (d : Bool) : dbit d = (cond d 1 0) * 2 ^ 31 := by
  cases d <;> simp [dbit, drop_flag_eq]

lemma pack_eq_add_mul (v : Nat) (r d : Bool) :
    pack v r d = v + ((cond r 1 0) + 2 * (cond d 1 0)) * 2 ^ 30 := by
  simp only [pack, rbit_eq, dbit_eq]
  cases r <;> cases d <;> dsimp only [cond] <;> omega

lemma pack_lt (v : Nat) (r d : Bool) (hv : v < 2 ^ 30) : pack v r d < 2 ^ 32 := by
  rw [pack_eq_add_mul]
  cases r <;> cases d <;> dsimp only [cond] <;> omega

lemma testBit_add_mul_two_pow (v c n i : Nat) (hv : v < 2 ^ n) :
    (v + c * 2 ^ n).testBit i = if i < n then v.testBit i else c.testBit (i - n) := by
  split
  case isTrue h =>
    rw [Nat.testBit_to_div_mod, Nat.testBit_to_div_mod]
    have h1 : c * 2 ^ n = (c * 2 ^ (n - i - 1) * 2) * 2 ^ i := by
      calc c * 2 ^ n = c * (2 ^ (n - i - 1) * 2 * 2 ^ i) := by
            rw [← Nat.pow_succ, ← Nat.pow_add,
              show n - i - 1 + 1 + i = n by omega]
      _ = (c * 2 ^ (n - i - 1) * 2) * 2 ^ i := by ring
    rw [h1, Nat.add_mul_div_right _ _ (Nat.pos_pow_of_pos i (by omega)),
      Nat.add_mul_mod_self_right]
  case isFalse h =>
    rw [Nat.testBit_to_div_mod, Nat.testBit_to_div_mod]
    have h1 : 2 ^ i = 2 ^ n * 2 ^ (i - n) := by
      rw [← Nat.pow_add, show n + (i - n) = i by omega]
    rw [h1, ← Nat.div_div_eq_div_mul,
      Nat.add_mul_div_right _ _ (Nat.pos_pow_of_pos n (by omega)),
      Nat.div_eq_of_lt hv, Nat.zero_add]

lemma testBit_pack (v : Nat) (r d : Bool) (hv : v < 2 ^ 30) (i : Nat) :
    (pack v r d).testBit i =
      if i < 30 then v.testBit i
      else if i = 30 then r
      else if i = 31 then d
      else false := by
  rw [pack_eq_add_mul, testBit_add_mul_two_pow _ _ _ _ hv]
  rcases Nat.lt_or_ge i 30 with h | h
  · simp [h]
  · have h0 : ¬ i < 30 := by omega
    rcases Nat.lt_or_ge i 32 with h2 | h2
    · interval_cases i <;> cases r <;> cases d <;> simp <;> decide
    · have h3 : i ≠ 30 := by omega
      have h4 : i ≠ 31 := by omega
      have h5 : ((cond r 1 0) + 2 * (cond d 1 0)) < 2 ^ (i - 30) := by
        have : (4 : Nat) ≤ 2 ^ (i - 30) := by
          calc (4 : Nat) = 2 ^ 2 := by norm_num
          _ ≤ 2 ^ (i - 30) := Nat.pow_le_pow_right (by omega) (by omega)
        cases r <;> cases d <;> simp <;> omega
      simp [h0, h3, h4, Nat.testBit_lt_two_pow h5]

lemma rbit_eq_pack (r : Bool) : rbit r = pack 0 r false := by
  simp [pack, dbit]

lemma dbit_eq_pack (d : Bool) : dbit d = pack 0 false d := by
  simp [pack, rbit]

lemma position_mask_eq_pack : position_mask = pack (2 ^ 30 - 1) false false := by
  rw [position_mask_eq]
  simp [pack, rbit, dbit]

lemma revolution_flag_eq_pack : revolution_flag = pack 0 true false := by
  simp [pack, rbit, dbit]

lemma drop_flag_eq_pack : drop_flag = pack 0 false true := by
  simp [pack, rbit, dbit]

lemma pack_val_lt (v : Nat) (hv : v < 2 ^ 30) : v = pack v false false := by
  simp [pack, rbit, dbit]

lemma pack_inj {v1 v2 : Nat} {r1 r2 d1 d2 : Bool} (h1 : v1 < 2 ^ 30) (h2 : v2 < 2 ^ 30) :
    pack v1 r1 d1 = pack v2 r2 d2 ↔ (v1 = v2 ∧ r1 = r2 ∧ d1 = d2) := by
  constructor
  · intro h
    rw [pack_eq_add_mul, pack_eq_add_mul] at h
    cases r1 <;> cases r2 <;> cases d1 <;> cases d2 <;> dsimp only [cond] at h <;>
      first
      | exact ⟨by omega, rfl, rfl⟩
      | exact absurd h (by omega)
  · rintro ⟨rfl, rfl, rfl⟩
    rfl

lemma pack_land_pack (v1 v2 : Nat) (r1 r2 d1 d2 : Bool) (h1 : v1 < 2 ^ 30)
    (h2 : v2 < 2 ^ 30) :
    pack v1 r1 d1 &&& pack v2 r2 d2 = pack (v1 &&& v2) (r1 && r2) (d1 && d2) := by
  apply Nat.eq_of_testBit_eq
  intro i
  rw [Nat.testBit_and, testBit_pack _ _ _ h1, testBit_pack _ _ _ h2,
    testBit_pack _ _ _ (Nat.and_lt_two_pow v1 h2)]
  by_cases hi : i < 30
  · simp [hi]
  · by_cases h30 : i = 30
    · simp [hi, h30]
    · by_cases h31 : i = 31 <;> simp [hi, h30, h31]

lemma pack_lor_pack (v1 v2 : Nat) (r1 r2 d1 d2 : Bool) (h1 : v1 < 2 ^ 30)
    (h2 : v2 < 2 ^ 30) :
    pack v1 r1 d1 ||| pack v2 r2 d2 = pack (v1 ||| v2) (r1 || r2) (d1 || d2) := by
  apply Nat.eq_of_testBit_eq
  intro i
  rw [Nat.testBit_or, testBit_pack _ _ _ h1, testBit_pack _ _ _ h2,
    testBit_pack _ _ _ (Nat.or_lt_two_pow h1 h2)]
  by_cases hi : i < 30
  · simp [hi]
  · by_cases h30 : i = 30
    · simp [hi, h30]
    · by_cases h31 : i = 31 <;> simp [hi, h30, h31]

lemma pack_xor_pack (v1 v2 : Nat) (r1 r2 d1 d2 : Bool) (h1 : v1 < 2 ^ 30)
    (h2 : v2 < 2 ^ 30) :
    pack v1 r1 d1 ^^^ pack v2 r2 d2 = pack (v1 ^^^ v2) (r1 != r2) (d1 != d2) := by
  apply Nat.eq_of_testBit_eq
  intro i
  rw [Nat.testBit_xor, testBit_pack _ _ _ h1, testBit_pack _ _ _ h2,
    testBit_pack _ _ _ (Nat.xor_lt_two_pow h1 h2)]
  by_cases hi : i < 30
  · simp [hi]
  · by_cases h30 : i = 30
    · simp [hi, h30]
    · by_cases h31 : i = 31 <;> simp [hi, h30, h31]

lemma pack_land_mask (v : Nat) (r d : Bool) (hv : v < 2 ^ 30) :
    pack v r d &&& position_mask = v := by
  rw [position_mask_eq_pack, pack_land_pack _ _ _ _ _ _ hv (by omega)]
  rw [Nat.and_pow_two_sub_one_of_lt_two_pow hv]
  simp [pack, rbit, dbit]

lemma pack_land_rev (v : Nat) (r d : Bool) (hv : v < 2 ^ 30) :
    pack v r d &&& revolution_flag = rbit r := by
  rw [revolution_flag_eq_pack, pack_land_pack _ _ _ _ _ _ hv (by omega)]
  rw [rbit_eq_pack]
  simp

lemma pack_land_drop (v : Nat) (r d : Bool) (hv : v < 2 ^ 30) :
    pack v r d &&& drop_flag = dbit d := by
  rw [drop_flag_eq_pack, pack_land_pack _ _ _ _ _ _ hv (by omega)]
  rw [dbit_eq_pack]
  simp

lemma lor_rbit (e : Nat) (r : Bool) (he : e < 2 ^ 30) :
    e ||| rbit r = pack e r false := by
  conv_lhs => rw [pack_val_lt e he, rbit_eq_pack]
  rw [pack_lor_pack _ _ _ _ _ _ he (by omega)]
  simp

lemma pack_lor_drop (v : Nat) (r d : Bool) (hv : v < 2 ^ 30) :
    pack v r d ||| drop_flag = pack v r true := by
  rw [drop_flag_eq_pack, pack_lor_pack _ _ _ _ _ _ hv (by omega)]
  simp

lemma rbit_xor_rev (r : Bool) : rbit r ^^^ revolution_flag = rbit (!r) := by
  rw [rbit_eq_pack, revolution_flag_eq_pack,
    pack_xor_pack _ _ _ _ _ _ (by omega) (by omega), rbit_eq_pack]
  cases r <;> rfl

lemma dbit_ne_zero_iff (d : Bool) : dbit d ≠ 0 ↔ d = true := by
  cases d <;> simp [dbit] <;> decide

lemma uadd_eq (a b : Nat) (h : a + b < 2 ^ 32) : uadd a b = a + b := by
  rw [uadd, M32, Nat.mod_eq_of_lt h]

lemma pack_zero : pack 0 false false = 0 := rfl

lemma xor_pack_false (mv tv : Nat) (mr tr td : Bool) (hmv : mv < 2 ^ 30)
    (htv : tv < 2 ^ 30) :
    pack mv mr false ^^^ pack tv tr td = pack (mv ^^^ tv) (mr != tr) td := by
  rw [pack_xor_pack _ _ _ _ _ _ hmv htv]
  cases td <;> rfl

lemma acquire_blocked_iff (cap slots wm mv tv : Nat) (mr tr td : Bool)
    (hmv : mv < 2 ^ 30) (htv : tv < 2 ^ 30)
    (hwm : wm = 0 ∨ wm = revolution_flag) :
    acquire cap (pack mv mr false) (pack tv tr td) wm slots = .blocked ↔
      (td = false ∧ mv = tv ∧
        ((wm = 0 ∧ mr = tr) ∨ (wm = revolution_flag ∧ mr ≠ tr))) := by
  have hxl : mv ^^^ tv < 2 ^ 30 := Nat.xor_lt_two_pow hmv htv
  have hE : (pack mv mr false ^^^ pack tv tr td = wm) ↔
      (td = false ∧ mv = tv ∧
        ((wm = 0 ∧ mr = tr) ∨ (wm = revolution_flag ∧ mr ≠ tr))) := by
    rw [xor_pack_false _ _ _ _ _ hmv htv]
    constructor
    · intro h
      rcases hwm with rfl | rfl
      · have h2 := (pack_inj hxl (by omega)).mp (h.trans pack_zero.symm)
        have hval : mv = tv := Nat.xor_eq_zero.mp h2.1
        have hflag : mr = tr := bne_eq_false_iff_eq.mp h2.2.1
        exact ⟨h2.2.2, hval, Or.inl ⟨rfl, hflag⟩⟩
      · have h2 := (pack_inj hxl (by omega)).mp (h.trans revolution_flag_eq_pack)
        have hval : mv = tv := Nat.xor_eq_zero.mp h2.1
        have hflag : mr ≠ tr := bne_iff_ne.mp h2.2.1
        exact ⟨h2.2.2, hval, Or.inr ⟨rfl, hflag⟩⟩
    · rintro ⟨rfl, rfl, ⟨rfl, rfl⟩ | ⟨rfl, hne⟩⟩
      · simp [pack_zero]
      · rw [revolution_flag_eq_pack]
        rw [pack_inj hxl (by omega)]
        exact ⟨Nat.xor_self mv, bne_iff_ne.mpr hne, rfl⟩
  simp only [acquire]
  split_ifs with h1 h2
  · exact iff_of_true rfl (hE.mp h1)
  · exact iff_of_false (by simp) (fun hr => h1 (hE.mpr hr))
  · exact iff_of_false (by simp) (fun hr => h1 (hE.mpr hr))

lemma acquire_closed_iff (cap slots wm mv tv : Nat) (mr tr td : Bool)
    (hmv : mv < 2 ^ 30) (htv : tv < 2 ^ 30)
    (hwm : wm = 0 ∨ wm = revolution_flag) :
    acquire cap (pack mv mr false) (pack tv tr td) wm slots = .closed ↔
      (td = true ∧ (wm = revolution_flag ∨ (mv = tv ∧ mr = tr))) := by
  have hxl : mv ^^^ tv < 2 ^ 30 := Nat.xor_lt_two_pow hmv htv
  have hrevne : revolution_flag ≠ 0 := by decide
  have hD : ((pack tv tr td &&& drop_flag) ≠ 0 ∧
      (wm ≠ 0 ∨ pack mv mr false ^^^ pack tv tr td = drop_flag)) ↔
      (td = true ∧ (wm = revolution_flag ∨ (mv = tv ∧ mr = tr))) := by
    rw [pack_land_drop _ _ _ htv, dbit_ne_zero_iff, xor_pack_false _ _ _ _ _ hmv htv]
    constructor
    · rintro ⟨hd, hwmne | hx⟩
      · refine ⟨hd, Or.inl ?_⟩
        rcases hwm with rfl | rfl
        · exact absurd rfl hwmne
        · rfl
      · have h2 := (pack_inj hxl (by omega)).mp (hx.trans drop_flag_eq_pack)
        exact ⟨h2.2.2, Or.inr ⟨Nat.xor_eq_zero.mp h2.1, bne_eq_false_iff_eq.mp h2.2.1⟩⟩
    · rintro ⟨rfl, rfl | ⟨rfl, rfl⟩⟩
      · exact ⟨rfl, Or.inl hrevne⟩
      · refine ⟨rfl, Or.inr ?_⟩
        rw [drop_flag_eq_pack, pack_inj hxl (by omega)]
        exact ⟨Nat.xor_self mv, bne_self_eq_false mr, rfl⟩
  have hblocked : (td = true ∧ (wm = revolution_flag ∨ (mv = tv ∧ mr = tr))) →
      ¬ (pack mv mr false ^^^ pack tv tr td = wm) := by
    rintro ⟨rfl, _⟩ hx
    rw [xor_pack_false _ _ _ _ _ hmv htv] at hx
    rcases hwm with rfl | rfl
    · exact absurd ((pack_inj hxl (by omega)).mp (hx.trans pack_zero.symm)).2.2 (by simp)
    · exact absurd ((pack_inj hxl (by omega)).mp
        (hx.trans revolution_flag_eq_pack)).2.2 (by simp)
  simp only [acquire]
  split_ifs with h1 h2
  · exact iff_of_false (by simp) (fun hr => hblocked hr h1)
  · exact iff_of_true rfl (hD.mp h2)
  · exact iff_of_false (by simp) (fun hr => h2 (hD.mpr hr))

lemma acquire_range_eq (cap slots wm mv tv : Nat) (mr tr td : Bool) (a : acquisition)
    (hmv : mv < 2 ^ 30) (htv : tv < 2 ^ 30) (hcap : cap < 2 ^ 30) (hsl : slots < 2 ^ 30)
    (h : acquire cap (pack mv mr false) (pack tv tr td) wm slots = .range a) :
    a = ⟨mv, min (if tv ≤ mv then cap else tv) (mv + slots),
      if min (if tv ≤ mv then cap else tv) (mv + slots) = cap then pack 0 (!mr) false
      else pack (min (if tv ≤ mv then cap else tv) (mv + slots)) mr false⟩ := by
  simp only [acquire] at h
  have hb := pack_land_mask mv mr false hmv
  have ht := pack_land_mask tv tr td htv
  have hr := pack_land_rev mv mr false hmv
  rw [hb, ht, hr, uadd_eq mv slots (by omega)] at h
  by_cases h1 : pack mv mr false ^^^ pack tv tr td = wm
  · rw [if_pos h1] at h
    exact absurd h (by simp)
  · rw [if_neg h1] at h
    by_cases h2 : (pack tv tr td &&& drop_flag ≠ 0 ∧
        (wm ≠ 0 ∨ pack mv mr false ^^^ pack tv tr td = drop_flag))
    · rw [if_pos h2] at h
      exact absurd h (by simp)
    · rw [if_neg h2] at h
      have hE2 : (if tv > mv then tv else cap) = (if tv ≤ mv then cap else tv) := by
        rcases Nat.lt_or_ge mv tv with hlt | hle
        · rw [if_pos hlt, if_neg (by omega)]
        · rw [if_neg (by omega), if_pos hle]
      rw [hE2] at h
      set E := min (if tv ≤ mv then cap else tv) (mv + slots) with hE
      have hElt : E < 2 ^ 30 := by
        have h3 : E ≤ (if tv ≤ mv then cap else tv) := Nat.min_le_left _ _
        split_ifs at h3 <;> omega
      have hnext : (if E ≠ cap then E ||| rbit mr else rbit mr ^^^ revolution_flag) =
          (if E = cap then pack 0 (!mr) false else pack E mr false) := by
        by_cases hc : E = cap
        · rw [if_neg (by omega), if_pos hc, rbit_xor_rev, rbit_eq_pack]
        · rw [if_pos hc, if_neg hc, lor_rbit _ _ hElt]
      rw [hnext] at h
      exact ((AcquireResult.range.injEq _ _).mp h).symm

/-- Claim C1: for every acquire call that does not return Closed, with own
packed position decomposed as value `mv` / revolution flag `mr` and peer
packed position as value `tv` / revolution flag `tr` / drop flag `td`: the
returned range has `begin = mv` and `end = tv`, except that when `end ≤ begin`
the end is clamped to `capacity` (only the first segment is returned); `end`
is then further clamped to `min(end, begin + requestedSlots)`; and the
returned next position equals `end` with the caller's revolution flag
unchanged when `end ≠ capacity`, and equals `0` with the revolution flag
flipped when `end = capacity`. -/
theorem c1_acquire_range_fields (cap slots wm mv tv : Nat) (mr tr td : Bool)
    (a : acquisition)
    (hmv : mv < 2 ^ 30) (htv : tv < 2 ^ 30) (hcap : cap < 2 ^ 30)
    (hsl : slots < 2 ^ 30)
    (h : acquire cap (pack mv mr false) (pack tv tr td) wm slots = .range a) :
    a.begin = mv ∧
    a.end_ = min (if tv ≤ mv then cap else tv) (mv + slots) ∧
    (a.end_ ≠ cap → a.next = pack a.end_ mr false) ∧
    (a.end_ = cap → a.next = pack 0 (!mr) false) := by
  have hA := acquire_range_eq cap slots wm mv tv mr tr td a hmv htv hcap hsl h
  subst hA
  refine ⟨rfl, rfl, ?_, ?_⟩ <;> dsimp only [] <;> intro hc
  · rw [if_neg hc]
  · rw [if_pos hc]

/-- Witness for C1 at capacity 4, caller position value 1, peer position
value 3, requested slots 1: the acquired range is `[1, 2)` and the next
position is `2` with an unchanged revolution flag. -/
theorem c1_witness :
    (1 : Nat) < 2 ^ 30 ∧
    ((⟨1, 2, 2⟩ : acquisition).begin = 1 ∧
      (⟨1, 2, 2⟩ : acquisition).end_ = min (if 3 ≤ 1 then 4 else 3) (1 + 1) ∧
      ((⟨1, 2, 2⟩ : acquisition).end_ ≠ 4 →
        (⟨1, 2, 2⟩ : acquisition).next = pack (⟨1, 2, 2⟩ : acquisition).end_ false false) ∧
      ((⟨1, 2, 2⟩ : acquisition).end_ = 4 →
        (⟨1, 2, 2⟩ : acquisition).next = pack 0 (!false) false)) :=
  ⟨by norm_num, c1_acquire_range_fields 4 1 0 1 3 false false false ⟨1, 2, 2⟩
    (by norm_num) (by norm_num) (by norm_num) (by norm_num) (by decide)⟩

/-- Claim C2: an acquire call returns Closed (the empty acquisition) if and
only if the peer's drop flag is set and either the caller is in the producer
role (waitMask is the revolution-flag bit) or the only difference between the
caller's position and the peer's position is the drop flag itself (equal
value fields and equal revolution flags); thus the producer stops immediately
once the consumer is gone, while the consumer first drains all
already-produced data before reporting closed. -/
theorem c2_acquire_closed (cap slots wm mv tv : Nat) (mr tr td : Bool)
    (hmv : mv < 2 ^ 30) (htv : tv < 2 ^ 30)
    (hwm : wm = 0 ∨ wm = revolution_flag) :
    acquire cap (pack mv mr false) (pack tv tr td) wm slots = .closed ↔
      (td = true ∧ (wm = revolution_flag ∨ (mv = tv ∧ mr = tr))) :=
  acquire_closed_iff cap slots wm mv tv mr tr td hmv htv hwm

/-- Witness for C2: a producer (waitMask = revolution_flag) observing a
dropped consumer at an equal position receives Closed. -/
theorem c2_witness :
    acquire 4 (pack 0 false false) (pack 0 false true) revolution_flag 1 = .closed :=
  (c2_acquire_closed 4 1 revolution_flag 0 0 false false true (by norm_num)
    (by norm_num) (Or.inr rfl)).mpr ⟨rfl, Or.inl rfl⟩

/-- Claim C9: every acquire call with requestedSlots ≥ 1 that returns a range
yields `0 ≤ begin < end ≤ capacity` — a nonempty, in-bounds slot range — so
the acquisition's boolean conversion (`end ≠ 0`) is true for every such
result, while the Closed result (a default-initialized acquisition) converts
to false; the conversion is therefore a sound Closed discriminator. -/
theorem c9_acquire_inbounds (cap slots wm mv tv : Nat) (mr tr td : Bool)
    (a : acquisition)
    (hmv : mv < cap) (htv : tv < cap) (hcap : cap < 2 ^ 30)
    (hsl1 : 1 ≤ slots) (hsl : slots < 2 ^ 30)
    (h : acquire cap (pack mv mr false) (pack tv tr td) wm slots = .range a) :
    a.begin < a.end_ ∧ a.end_ ≤ cap ∧ a.toBool = true ∧
      acquisition.toBool {} = false := by
  have hA := acquire_range_eq cap slots wm mv tv mr tr td a (by omega) (by omega) hcap hsl h
  subst hA
  dsimp only [acquisition.toBool]
  have hlt : mv < min (if tv ≤ mv then cap else tv) (mv + slots) := by
    rw [Nat.lt_min]
    split_ifs <;> omega
  have hle : min (if tv ≤ mv then cap else tv) (mv + slots) ≤ cap := by
    have h1 : (if tv ≤ mv then cap else tv) ≤ cap := by split_ifs <;> omega
    exact le_trans (Nat.min_le_left _ _) h1
  refine ⟨hlt, hle, ?_, rfl⟩
  simp only [bne_iff_ne, ne_eq]
  omega

/-- Witness for C9 at capacity 4, caller at value 0, peer at value 2,
requested slots 4: the acquired range `[0, 2)` is nonempty and in bounds and
converts to true. -/
theorem c9_witness :
    (⟨0, 2, 2⟩ : acquisition).begin < (⟨0, 2, 2⟩ : acquisition).end_ ∧
    (⟨0, 2, 2⟩ : acquisition).end_ ≤ 4 ∧
    (⟨0, 2, 2⟩ : acquisition).toBool = true ∧
    acquisition.toBool {} = false :=
  c9_acquire_inbounds 4 4 0 0 2 false false false ⟨0, 2, 2⟩ (by norm_num)
    (by norm_num) (by norm_num) (by norm_num) (by norm_num) (by decide)

/-- Teardown-relevant fields of `arc`: the two position words and the
`_eitherSideDropped` flag. -/
structure DropState where
  producerPos : Nat
  consumerPos : Nat
  eitherSideDropped : Bool
deriving Repr, DecidableEq

/-- Which side performs a drop. -/
inductive Dropper where
  | producer
  | consumer
deriving Repr, DecidableEq

/-- The opposite side. -/
def Dropper.other : Dropper → Dropper
  | .producer => .consumer
  | .consumer => .producer

/-- Function `arc::drop(mine)`: stores `myPos | drop_flag` into the caller-owned
position word, then runs `_eitherSideDropped.exchange(true)`.  The returned
Bool is the exchange result: `delete this` — destruction of resident
elements by `~arc` followed by `free_raw_memory` — runs iff it is true. -/
def drop (s : DropState) (who : Dropper) : DropState × Bool :=
  let s1 := match who with
    | .producer => { s with producerPos := s.producerPos ||| drop_flag }
    | .consumer => { s with consumerPos := s.consumerPos ||| drop_flag }
  ({ s1 with eitherSideDropped := true }, s1.eitherSideDropped)

/-- Destructor `arc::~arc()`: the buffer indices whose elements the destructor destroys,
computed from the final position words exactly as in the source (`beg` from
the consumer word, `end` from the producer word, the revolution-difference
test on the unmasked words). -/
def destroyedIndices (cap producerPos consumerPos : Nat) : List Nat :=
  let beg := consumerPos &&& position_mask
  let end_ := producerPos &&& position_mask
  let differentRevolution := ((consumerPos ^^^ producerPos) &&& revolution_flag) ≠ 0
  if end_ > beg then List.range' beg (end_ - beg)
  else if differentRevolution then List.range end_ ++ List.range' beg (cap - beg)
  else []

/-- The segments claim C3 names, in the claim's order: the single segment
[consumer value, producer value) when producer value > consumer value; the
two segments [0, producer value) and [consumer value, capacity) when the
revolution flags differ; none when the positions including revolution flags
are fully equal. -/
def claimDestroyedSegments (cap pv cv : Nat) (pr cr : Bool) : List Nat :=
  if pv > cv then List.range' cv (pv - cv)
  else if pr ≠ cr then List.range pv ++ List.range' cv (cap - cv)
  else []

lemma rbit_ne_zero_iff (r : Bool) : rbit r ≠ 0 ↔ r = true := by
  cases r <;> simp [rbit] <;> decide

lemma destroyedIndices_pack (cap pv cv : Nat) (pr cr dp dc : Bool)
    (hpv : pv < 2 ^ 30) (hcv : cv < 2 ^ 30) :
    destroyedIndices cap (pack pv pr dp) (pack cv cr dc) =
      claimDestroyedSegments cap pv cv pr cr := by
  unfold destroyedIndices claimDestroyedSegments
  rw [pack_land_mask _ _ _ hcv, pack_land_mask _ _ _ hpv]
  have hx : (pack cv cr dc ^^^ pack pv pr dp) &&& revolution_flag =
      rbit (cr != pr) := by
    rw [pack_xor_pack _ _ _ _ _ _ hcv hpv,
      pack_land_rev _ _ _ (Nat.xor_lt_two_pow hcv hpv)]
  rw [hx]
  have hr : (rbit (cr != pr) ≠ 0) ↔ (pr ≠ cr) := by
    rw [rbit_ne_zero_iff]
    cases pr <;> cases cr <;> simp
  simp only [hr]

/-- Claim C3: for either interleaving of one `drop_producer` and one
`drop_consumer` call on the same shared state, the first dropper observes the
either-side-dropped flag unset (and so performs no destruction), the second
dropper observes it set (and so is the unique call that destroys the resident
elements and frees the backing storage via `delete this`), and the elements
destroyed by the destructor at that point are exactly the segments the claim
names: `[consumer value, producer value)` when the producer value is greater,
the two segments `[0, producer value)` and `[consumer value, capacity)` when
the revolution flags differ, and none when the positions including revolution
flags are fully equal. -/
theorem c3_drop_second_destroys (cap pv cv : Nat) (pr cr : Bool) (first : Dropper)
    (hpv : pv < 2 ^ 30) (hcv : cv < 2 ^ 30) :
    (drop ⟨pack pv pr false, pack cv cr false, false⟩ first).2 = false ∧
    (drop (drop ⟨pack pv pr false, pack cv cr false, false⟩ first).1
        first.other).2 = true ∧
    destroyedIndices cap
        (drop (drop ⟨pack pv pr false, pack cv cr false, false⟩ first).1
          first.other).1.producerPos
        (drop (drop ⟨pack pv pr false, pack cv cr false, false⟩ first).1
          first.other).1.consumerPos
      = claimDestroyedSegments cap pv cv pr cr := by
  cases first <;>
    · dsimp only [drop, Dropper.other]
      refine ⟨rfl, rfl, ?_⟩
      rw [pack_lor_drop _ _ _ hpv, pack_lor_drop _ _ _ hcv]
      exact destroyedIndices_pack cap pv cv pr cr true true hpv hcv

/-- Witness for C3 at capacity 4, producer value 3, consumer value 1, equal
revolution flags, producer dropping first: the destroyed segment is `[1, 3)`. -/
theorem c3_witness :
    (drop ⟨pack 3 false false, pack 1 false false, false⟩ .producer).2 = false ∧
    (drop (drop ⟨pack 3 false false, pack 1 false false, false⟩ .producer).1
        (Dropper.other .producer)).2 = true ∧
    destroyedIndices 4
        (drop (drop ⟨pack 3 false false, pack 1 false false, false⟩ .producer).1
          (Dropper.other .producer)).1.producerPos
        (drop (drop ⟨pack 3 false false, pack 1 false false, false⟩ .producer).1
          (Dropper.other .producer)).1.consumerPos
      = claimDestroyedSegments 4 3 1 false false :=
  c3_drop_second_destroys 4 3 1 false false .producer (by norm_num) (by norm_num)

/-- Result of `til::spsc::channel`: the shared `arc` state it allocates —
capacity plus the two position words, both starting at zero — to which the
returned sender and receiver are bound. -/
structure ChannelState where
  capacity : Nat
  producerPos : Nat
  consumerPos : Nat
deriving Repr, DecidableEq

/-- Factory `til::spsc::channel(capacity)`: throws `std::invalid_argument` when
`capacity == 0`; otherwise allocates a fresh `arc` and returns the
sender/receiver pair bound to it.  The source performs no other validation —
in particular it never calls `details::validate_size` on the capacity. -/
def channel (capacity : Nat) : Except String ChannelState :=
  if capacity = 0 then .error "invalid capacity"
  else .ok ⟨capacity, 0, 0⟩

/-- Claim C5, evaluated on the code: `channel 0` fails with the
invalid-argument condition, `channel 1` and `channel position_mask`
(= capacity_max = 2^30 - 1) succeed — but at the failing input
capacity = 2^30 = capacity_max + 1, which exceeds the maximum representable
value field, `channel` succeeds instead of failing with an Overflow
condition: the source never performs the overflow check the claim
describes. -/
theorem c5_channel_no_overflow_check :
    channel 0 = .error "invalid capacity" ∧
    channel 1 = .ok ⟨1, 0, 0⟩ ∧
    channel position_mask = .ok ⟨position_mask, 0, 0⟩ ∧
    position_mask < 2 ^ 30 ∧
    channel (2 ^ 30) = .ok ⟨2 ^ 30, 0, 0⟩ := by
  refine ⟨rfl, rfl, ?_, by decide, ?_⟩ <;> rw [channel, if_neg (by decide)]

/-- A sender or receiver handle: at most one reference to a shared `arc`,
modelled as an optional identifier.  A moved-from handle holds `none`. -/
structure handle where
  arc : Option Nat
deriving Repr, DecidableEq

/-- Outcome of a move-assignment `a = std::move(b)`: the new states of the
two handles and the value the function body produces for its caller. -/
structure MoveAssignResult where
  self : handle
  other : handle
  returned : Option handle
deriving Repr, DecidableEq

/-- Operator `sender::operator=(sender&&)`: drops the current reference, exchanges the
other handle's pointer into this one — and, as in the source, contains no
return statement on any path, so the value produced for the caller is
modelled as `none`. -/
def sender_move_assign (self other : handle) : MoveAssignResult :=
  ⟨⟨other.arc⟩, ⟨none⟩, none⟩

/-- Operator `receiver::operator=(receiver&&)`: identical body to the sender version,
including the missing return statement. -/
def receiver_move_assign (self other : handle) : MoveAssignResult :=
  ⟨⟨other.arc⟩, ⟨none⟩, none⟩

/-- Claim C8, evaluated on the code at the failing input (a sender holding
arc 1 move-assigned from a sender holding arc 2, and the same for
receivers): the pointer is transferred and the source handle emptied, but
the operator returns no value — `returned = none` — rather than the valid
reference to the moved-into handle that the claim requires of every code
path. -/
theorem c8_move_assign_missing_return :
    (sender_move_assign ⟨some 1⟩ ⟨some 2⟩).self = ⟨some 2⟩ ∧
    (sender_move_assign ⟨some 1⟩ ⟨some 2⟩).other = ⟨none⟩ ∧
    (sender_move_assign ⟨some 1⟩ ⟨some 2⟩).returned = none ∧
    (receiver_move_assign ⟨some 1⟩ ⟨some 2⟩).returned = none := by
  exact ⟨rfl, rfl, rfl, rfl⟩

/-- Effect of `std::uninitialized_move_n(in, got, begin)`: writes the elements of `vs`
into the buffer at consecutive indices starting at `start`. -/
def writeSeq : (Nat → Option α) → Nat → List α → Nat → Option α
  | buf, _, [] => buf
  | buf, start, v :: vs =>
    writeSeq (fun i => if i = start then some v else buf i) (start + 1) vs

/-- Effect of `std::destroy(beg, end)`: clears `n` consecutive buffer slots starting at
`start`. -/
def eraseSeq (buf : Nat → Option α) (start n : Nat) : Nat → Option α :=
  fun i => if start ≤ i ∧ i < start + n then none else buf i

lemma writeSeq_out (buf : Nat → Option α) (start : Nat) (vs : List α) (i : Nat)
    (h : i < start ∨ start + vs.length ≤ i) :
    writeSeq buf start vs i = buf i := by
  induction vs generalizing buf start with
  | nil => rfl
  | cons v vs ih =>
    rw [writeSeq]
    rw [ih _ _ (by simp at h; omega)]
    rw [if_neg (by simp at h; omega)]

lemma writeSeq_in (buf : Nat → Option α) (start : Nat) (vs : List α) (k : Nat)
    (hk : k < vs.length) :
    writeSeq buf start vs (start + k) = some (vs.get ⟨k, hk⟩) := by
  induction vs generalizing buf start k with
  | nil => exact absurd hk (by simp)
  | cons v vs ih =>
    rw [writeSeq]
    match k with
    | 0 =>
      rw [writeSeq_out _ _ _ _ (by omega)]
      simp
    | k + 1 =>
      rw [show start + (k + 1) = (start + 1) + k by omega]
      rw [ih _ _ _ (by simpa using hk)]
      simp

/-- Function `details::validate_size(v)`: throws `std::overflow_error` when the
requested size exceeds `position_mask`. -/
def validate_size (v : Nat) : Except String Unit :=
  if v > position_mask then .error "size too large for spsc" else .ok ()

/-- Result of the `sender::move_n` loop: the advanced source sequence, the
"fully delivered" flag, the final producer position word, the final buffer,
the total number of elements transferred, and the acquisitions of the
successive rounds. -/
structure MoveResult (α : Type) where
  src : List α
  ok : Bool
  myPos : Nat
  buf : Nat → Option α
  transferred : Nat
  rounds : List acquisition

/-- Result of the `receiver::pop_n` loop: the output sequence, the flag, the
final consumer position word, the final buffer, the total transferred, and
the per-round acquisitions. -/
structure PopResult (α : Type) where
  out : List (Option α)
  ok : Bool
  myPos : Nat
  buf : Nat → Option α
  transferred : Nat
  rounds : List acquisition

/-- The `while (count != 0)` loop of `sender::move_n`, evaluated against the
list of consumer positions observed at the successive rounds (one entry per
call to `producer_acquire`); `none` means the observed trace does not
determine the outcome (the loop would still be running or parked).  Each
round acquires up to the remaining count, move-constructs the acquired
amount from the source into the acquired range, releases (the next round
runs at the committed `next` position), and subtracts the amount
transferred; a Closed acquisition stops the loop with `ok = false`. -/
def move_n_go (cap : Nat) :
    List Nat → (Nat → Option α) → Nat → List α → Nat → Option (MoveResult α)
  | _, buf, myPos, src, 0 => some ⟨src, true, myPos, buf, 0, []⟩
  | [], _, _, _, _ + 1 => none
  | p :: rest, buf, myPos, src, count + 1 =>
    match acquire cap myPos p revolution_flag (count + 1) with
    | .blocked => none
    | .closed => some ⟨src, false, myPos, buf, 0, []⟩
    | .range a =>
      let got := a.end_ - a.begin
      match move_n_go cap rest (writeSeq buf a.begin (src.take got)) a.next
          (src.drop got) (count + 1 - got) with
      | none => none
      | some r =>
        some { r with transferred := got + r.transferred, rounds := a :: r.rounds }

/-- Function `sender::move_n(in, count)`: validates the count, then runs the transfer
loop. -/
def move_n (cap : Nat) (peers : List Nat) (buf : Nat → Option α) (myPos : Nat)
    (src : List α) (count : Nat) : Except String (Option (MoveResult α)) :=
  match validate_size count with
  | .error e => .error e
  | .ok _ => .ok (move_n_go cap peers buf myPos src count)

/-- The `while (count != 0)` loop of `receiver::pop_n`, evaluated against the
list of producer positions observed at the successive rounds.  Each round
acquires up to the remaining count, moves the acquired slots to the output,
destroys them, releases, and subtracts the amount transferred. -/
def pop_n_go (cap : Nat) :
    List Nat → (Nat → Option α) → Nat → Nat → Option (PopResult α)
  | _, buf, myPos, 0 => some ⟨[], true, myPos, buf, 0, []⟩
  | [], _, _, _ + 1 => none
  | p :: rest, buf, myPos, count + 1 =>
    match acquire cap myPos p 0 (count + 1) with
    | .blocked => none
    | .closed => some ⟨[], false, myPos, buf, 0, []⟩
    | .range a =>
      let got := a.end_ - a.begin
      let vals := (List.range got).map (fun k => buf (a.begin + k))
      match pop_n_go cap rest (eraseSeq buf a.begin got) a.next (count + 1 - got) with
      | none => none
      | some r =>
        some { r with
            out := vals ++ r.out
            transferred := got + r.transferred
            rounds := a :: r.rounds }

/-- Function `receiver::pop_n(out, count)`: validates the count, then runs the read
loop. -/
def pop_n (cap : Nat) (peers : List Nat) (buf : Nat → Option α) (myPos : Nat)
    (count : Nat) : Except String (Option (PopResult α)) :=
  match validate_size count with
  | .error e => .error e
  | .ok _ => .ok (pop_n_go cap peers buf myPos count)

/-- Claim C10: for every count greater than `position_mask` = 2^30 - 1 the
batch operations `move_n` and `pop_n` raise the overflow error synchronously,
before any slot is acquired or any element transferred (the loop is never
entered and the channel state is untouched); for every count at or below the
bound they proceed into the transfer loop. -/
theorem c10_batch_overflow_gate {α : Type} (cap : Nat) (peers : List Nat)
    (buf : Nat → Option α) (myPos : Nat) (src : List α) (count : Nat) :
    (position_mask < count →
      move_n cap peers buf myPos src count = .error "size too large for spsc" ∧
      pop_n cap peers buf myPos count =
        (.error "size too large for spsc" : Except String (Option (PopResult α)))) ∧
    (count ≤ position_mask →
      move_n cap peers buf myPos src count =
        .ok (move_n_go cap peers buf myPos src count) ∧
      pop_n cap peers buf myPos count = .ok (pop_n_go cap peers buf myPos count)) := by
  constructor
  · intro h
    rw [move_n, pop_n, validate_size, if_pos h]
    exact ⟨rfl, rfl⟩
  · intro h
    rw [move_n, pop_n, validate_size, if_neg (by omega)]
    exact ⟨rfl, rfl⟩

/-- Witness for C10: count 2^30 (one above the bound) is rejected by both
batch operations, count 0 is accepted. -/
theorem c10_witness :
    (move_n 4 [] (fun _ => (none : Option Nat)) 0 [] (2 ^ 30) =
      .error "size too large for spsc" ∧
    pop_n 4 [] (fun _ => (none : Option Nat)) 0 (2 ^ 30) =
      .error "size too large for spsc") ∧
    (move_n 4 [] (fun _ => (none : Option Nat)) 0 [] 0 =
      .ok (move_n_go 4 [] (fun _ => none) 0 [] 0) ∧
    pop_n 4 [] (fun _ => (none : Option Nat)) 0 0 =
      .ok (pop_n_go 4 [] (fun _ => none) 0 0)) :=
  ⟨(c10_batch_overflow_gate 4 [] (fun _ => none) 0 [] (2 ^ 30)).1 (by decide),
   (c10_batch_overflow_gate 4 [] (fun _ => none) 0 [] 0).2 (by decide)⟩

lemma range_bounds (cap slots mv tv : Nat) (hmv : mv < cap) (htv : tv < cap)
    (hsl1 : 1 ≤ slots) :
    mv < min (if tv ≤ mv then cap else tv) (mv + slots) ∧
    min (if tv ≤ mv then cap else tv) (mv + slots) ≤ cap := by
  constructor
  · rw [Nat.lt_min]
    split_ifs <;> omega
  · have h1 : (if tv ≤ mv then cap else tv) ≤ cap := by split_ifs <;> omega
    exact le_trans (Nat.min_le_left _ _) h1

/-- Claim C6: for every source sequence and count, the batch send loop
(modelled over the list of peer positions observed at the successive rounds)
repeatedly acquires up to the remaining count, move-constructs exactly the
acquired amount from the source into the acquired range, releases, and
subtracts the transferred amount, looping until the remaining count is zero
or an acquire returns Closed; the returned source position has advanced by
exactly the total transferred amount, the flag is true if and only if all
`count` items were delivered (false exactly when a Closed was observed
mid-transfer), and every round's acquired range is contiguous and in bounds
(`begin < end ≤ capacity`), so a capacity-spanning request is split into
multiple acquire/release rounds rather than one non-contiguous range. -/
theorem c6_move_n_loop {α : Type} (cap : Nat) (peers : List Nat)
    (buf : Nat → Option α) (mv : Nat) (mr : Bool) (src : List α) (count : Nat)
    (r : MoveResult α)
    (hcap0 : 1 ≤ cap) (hcap : cap ≤ position_mask)
    (hmv : mv < cap) (hcount : count ≤ position_mask)
    (hpeers : ∀ p ∈ peers, ∃ tv tr td, p = pack tv tr td ∧ tv < cap)
    (h : move_n_go cap peers buf (pack mv mr false) src count = some r) :
    r.transferred ≤ count ∧
    (r.ok = true ↔ r.transferred = count) ∧
    r.src = src.drop r.transferred ∧
    (∀ a ∈ r.rounds, a.begin < a.end_ ∧ a.end_ ≤ cap) := by
  have hmask : position_mask = 2 ^ 30 - 1 := position_mask_eq
  induction peers generalizing buf mv mr src count r with
  | nil =>
    cases count with
    | zero =>
      simp only [move_n_go] at h
      injection h with h
      subst h
      refine ⟨Nat.le_refl 0, by simp, by simp, by simp⟩
    | succ n =>
      simp only [move_n_go] at h
      exact absurd h (by simp)
  | cons p rest ih =>
    cases count with
    | zero =>
      simp only [move_n_go] at h
      injection h with h
      subst h
      refine ⟨Nat.le_refl 0, by simp, by simp, by simp⟩
    | succ n =>
      obtain ⟨tv, tr, td, rfl, htv⟩ := hpeers p (by simp)
      simp only [move_n_go] at h
      cases hacq : acquire cap (pack mv mr false) (pack tv tr td)
          revolution_flag (n + 1) with
      | blocked =>
        rw [hacq] at h
        exact absurd h (by simp)
      | closed =>
        rw [hacq] at h
        dsimp at h
        injection h with h
        subst h
        refine ⟨by simp, iff_of_false (by simp) (by simp), by simp, by simp⟩
      | range a =>
        rw [hacq] at h
        have hA := acquire_range_eq cap (n + 1) revolution_flag mv tv mr tr td a
          (by omega) (by omega) (by omega) (by omega) hacq
        subst hA
        dsimp only [] at h
        set E := min (if tv ≤ mv then cap else tv) (mv + (n + 1)) with hE
        have hEb := range_bounds cap (n + 1) mv tv hmv htv (by omega)
        rw [← hE] at hEb
        have hgot : E - mv ≤ n + 1 := by
          have : E ≤ mv + (n + 1) := Nat.min_le_right _ _
          omega
        have hpeers2 : ∀ q ∈ rest, ∃ tv2 tr2 td2, q = pack tv2 tr2 td2 ∧ tv2 < cap :=
          fun q hq => hpeers q (List.mem_cons_of_mem _ hq)
        by_cases hEc : E = cap
        · rw [if_pos hEc] at h
          cases hrec : move_n_go cap rest
              (writeSeq buf mv (src.take (E - mv))) (pack 0 (!mr) false)
              (src.drop (E - mv)) (n + 1 - (E - mv)) with
          | none =>
            rw [hrec] at h
            exact absurd h (by simp)
          | some r2 =>
            rw [hrec] at h
            dsimp at h
            injection h with h
            subst h
            obtain ⟨ih1, ih2, ih3, ih4⟩ := ih _ _ (!mr) _ _ r2 (by omega) (by omega)
              hpeers2 hrec
            refine ⟨by dsimp; omega, ?_, ?_, ?_⟩
            · dsimp
              rw [ih2]
              constructor <;> omega
            · dsimp
              rw [ih3, List.drop_drop]
            · intro b hb
              dsimp at hb
              rcases List.mem_cons.mp hb with rfl | hb2
              · exact ⟨hEb.1, hEb.2⟩
              · exact ih4 b hb2
        · rw [if_neg hEc] at h
          cases hrec : move_n_go cap rest
              (writeSeq buf mv (src.take (E - mv))) (pack E mr false)
              (src.drop (E - mv)) (n + 1 - (E - mv)) with
          | none =>
            rw [hrec] at h
            exact absurd h (by simp)
          | some r2 =>
            rw [hrec] at h
            dsimp at h
            injection h with h
            subst h
            obtain ⟨ih1, ih2, ih3, ih4⟩ := ih _ _ mr _ _ r2 (by omega) (by omega)
              hpeers2 hrec
            refine ⟨by dsimp; omega, ?_, ?_, ?_⟩
            · dsimp
              rw [ih2]
              constructor <;> omega
            · dsimp
              rw [ih3, List.drop_drop]
            · intro b hb
              dsimp at hb
              rcases List.mem_cons.mp hb with rfl | hb2
              · exact ⟨hEb.1, hEb.2⟩
              · exact ih4 b hb2

/-- Witness for C6 at capacity 4: a single-round transfer of two items from
source `[10, 11]` into slots `[0, 2)` completes with the flag set and the
source advanced by two. -/
theorem c6_witness :
    (2 : Nat) ≤ 2 ∧ ((true = true) ↔ (2 : Nat) = 2) ∧
    ([] : List Nat) = [10, 11].drop 2 ∧
    (∀ a ∈ [(⟨0, 2, 2⟩ : acquisition)], a.begin < a.end_ ∧ a.end_ ≤ 4) :=
  c6_move_n_loop 4 [pack 2 false false] (fun _ => none) 0 false [10, 11] 2
    ⟨[], true, 2, writeSeq (fun _ => none) 0 [10, 11], 2, [⟨0, 2, 2⟩]⟩
    (by norm_num) (by decide) (by norm_num) (by decide)
    (by
      intro p hp
      simp at hp
      subst hp
      exact ⟨2, false, false, rfl, by norm_num⟩)
    rfl

/-- The full shared channel state as the two sides interact with it: the two
position words, the ring buffer (a slot is `some v` exactly while a value
`v` is constructed in it), plus the histories of values the producer has
committed (`sent`) and the consumer has extracted (`recvd`). -/
structure ChanState (α : Type) where
  prodPos : Nat
  consPos : Nat
  buf : Nat → Option α
  sent : List α
  recvd : List α

/-- A freshly constructed channel: both position words zero, no slot
constructed. -/
def initChan (α : Type) : ChanState α := ⟨0, 0, fun _ => none, [], []⟩

/-- One committed operation by either side.  A producer step is
`producer_acquire(slots)` (which must yield a range), construction of the
acquired slots from new values `vs` (`std::uninitialized_move_n`), then
`producer_release`; a consumer step is `consumer_acquire(slots)`, reading the
acquired slots (which must be constructed), `std::destroy` of them, then
`consumer_release`.  `slots` is between 1 and `position_mask`, as at every
call site (`emplace` passes 1; `move_n`/`pop_n` pass a validated count). -/
inductive Step (cap : Nat) : ChanState α → ChanState α → Prop where
  | prod (s : ChanState α) (slots : Nat) (vs : List α) (a : acquisition)
      (hs1 : 1 ≤ slots) (hs2 : slots ≤ position_mask)
      (ha : acquire cap s.prodPos s.consPos revolution_flag slots = .range a)
      (hlen : vs.length = a.end_ - a.begin) :
      Step cap s ⟨a.next, s.consPos, writeSeq s.buf a.begin vs,
        s.sent ++ vs, s.recvd⟩
  | cons (s : ChanState α) (slots : Nat) (vs : List α) (a : acquisition)
      (hs1 : 1 ≤ slots) (hs2 : slots ≤ position_mask)
      (ha : acquire cap s.consPos s.prodPos 0 slots = .range a)
      (hlen : vs.length = a.end_ - a.begin)
      (hread : ∀ k, k < vs.length → s.buf (a.begin + k) = vs[k]?) :
      Step cap s ⟨s.prodPos, a.next, eraseSeq s.buf a.begin (a.end_ - a.begin),
        s.sent, s.recvd ++ vs⟩

/-- States reachable from a fresh channel by any interleaving of successful
producer and consumer operations. -/
inductive Reachable (cap : Nat) : ChanState α → Prop where
  | init : Reachable cap (initChan α)
  | step {s t : ChanState α} : Reachable cap s → Step cap s t → Reachable cap t

/-- Ring-buffer slot index of the k-th live element when the consumer value
field is `cv`: `(cv + k) mod cap`, written without `%` for arithmetic
convenience (valid for `cv < cap`, `k ≤ cap`). -/
def wrapIdx (cap cv k : Nat) : Nat := if cv + k < cap then cv + k else cv + k - cap

/-- The logical distance from the consumer position word to the producer
position word: the difference of the value fields, adjusted by `capacity`
when the revolution flags differ. -/
def logicalDist (cap pPos cPos : Nat) : Nat :=
  if (pPos &&& revolution_flag) = (cPos &&& revolution_flag)
  then (pPos &&& position_mask) - (cPos &&& position_mask)
  else cap + (pPos &&& position_mask) - (cPos &&& position_mask)

/-- The channel invariant: the two position words decompose into value fields
below `cap` with clear drop flags; `sent` is `recvd` followed by the live
values; the number of live values is the logical distance (value difference,
adjusted by `cap` when the revolution flags differ); and the buffer holds
exactly the live values at the ring positions following the consumer value
field, all other slots being unconstructed. -/
def ChanInv (cap : Nat) (s : ChanState α) : Prop :=
  ∃ (pv cv : Nat) (pr cr : Bool) (live : List α),
    s.prodPos = pack pv pr false ∧
    s.consPos = pack cv cr false ∧
    pv < cap ∧ cv < cap ∧
    s.sent = s.recvd ++ live ∧
    live.length = (if pr = cr then pv - cv else cap + pv - cv) ∧
    (if pr = cr then cv ≤ pv else pv ≤ cv) ∧
    (∀ k, k < live.length → s.buf (wrapIdx cap cv k) = live[k]?) ∧
    (∀ i : Nat, (∀ k, k < live.length → i ≠ wrapIdx cap cv k) → s.buf i = none)

lemma writeSeq_in2 (buf : Nat → Option α) (start : Nat) (vs : List α) (k : Nat)
    (hk : k < vs.length) :
    writeSeq buf start vs (start + k) = vs[k]? := by
  rw [writeSeq_in buf start vs k hk, List.getElem?_eq_getElem hk]
  rfl

lemma chanInv_prod {α : Type} (cap : Nat) (hcap0 : 1 ≤ cap)
    (hcap : cap ≤ position_mask)
    (s : ChanState α) (slots : Nat) (vs : List α) (a : acquisition)
    (hs1 : 1 ≤ slots) (hs2 : slots ≤ position_mask)
    (ha : acquire cap s.prodPos s.consPos revolution_flag slots = .range a)
    (hlen : vs.length = a.end_ - a.begin)
    (hinv : ChanInv cap s) :
    ChanInv cap ⟨a.next, s.consPos, writeSeq s.buf a.begin vs,
      s.sent ++ vs, s.recvd⟩ := by
  obtain ⟨pv, cv, pr, cr, live, hp, hc, hpv, hcv, hsent, hL, hord, hlook, hsupp⟩ := hinv
  have hmask : position_mask = 2 ^ 30 - 1 := position_mask_eq
  rw [hp, hc] at ha
  have hnb : ¬ (pv = cv ∧ pr ≠ cr) := by
    intro hb
    have hbl := (acquire_blocked_iff cap slots revolution_flag pv cv pr cr false
      (by omega) (by omega) (Or.inr rfl)).mpr ⟨rfl, hb.1, Or.inr ⟨rfl, hb.2⟩⟩
    rw [ha] at hbl
    exact absurd hbl (by simp)
  have hA := acquire_range_eq cap slots revolution_flag pv cv pr cr false a
    (by omega) (by omega) (by omega) (by omega) ha
  subst hA
  dsimp only [] at hlen ⊢
  set E := min (if cv ≤ pv then cap else cv) (pv + slots) with hE
  have hEb := range_bounds cap slots pv cv hpv hcv hs1
  rw [← hE] at hEb
  set L := live.length with hLdef
  have hCL : (pr = cr ∧ cv ≤ pv ∧ cv + L = pv) ∨
      (pr ≠ cr ∧ pv < cv ∧ cv + L = cap + pv ∧ E ≤ cv) := by
    by_cases hf : pr = cr
    · rw [if_pos hf] at hL
      rw [if_pos hf] at hord
      exact Or.inl ⟨hf, hord, by omega⟩
    · rw [if_neg hf] at hL
      rw [if_neg hf] at hord
      have hpc : pv < cv := by
        rcases Nat.lt_or_ge pv cv with h1 | h1
        · exact h1
        · exact absurd ⟨by omega, hf⟩ hnb
      have hEcv : E ≤ cv := by
        rw [hE, if_neg (by omega)]
        exact Nat.min_le_left _ _
      exact Or.inr ⟨hf, hpc, by omega, hEcv⟩
  have hFactA : ∀ j, j < E - pv → wrapIdx cap cv (L + j) = pv + j ∧ pv + j < cap := by
    intro j hj
    rcases hCL with ⟨hf, h1, h2⟩ | ⟨hf, h1, h2, h3⟩ <;>
      exact ⟨by unfold wrapIdx; split_ifs <;> omega, by omega⟩
  have hFactB : ∀ k, k < L →
      (wrapIdx cap cv k < pv ∨ E ≤ wrapIdx cap cv k) := by
    intro k hk
    rcases hCL with ⟨hf, h1, h2⟩ | ⟨hf, h1, h2, h3⟩ <;>
      · unfold wrapIdx
        split_ifs <;> omega
  have hlook2 : ∀ k, k < (live ++ vs).length →
      writeSeq s.buf pv vs (wrapIdx cap cv k) = (live ++ vs)[k]? := by
    intro k hk
    rw [List.length_append] at hk
    by_cases hkL : k < L
    · rw [writeSeq_out]
      · rw [hlook k hkL, List.getElem?_append_left hkL]
      · rcases hFactB k hkL with h1 | h1
        · exact Or.inl (by omega)
        · exact Or.inr (by omega)
    · obtain ⟨j, rfl⟩ : ∃ j, k = L + j := ⟨k - L, by omega⟩
      have hj : j < vs.length := by omega
      have hj2 : j < E - pv := by omega
      obtain ⟨hidx, hbound⟩ := hFactA j hj2
      rw [hidx, writeSeq_in2 s.buf pv vs j hj,
        List.getElem?_append_right (by omega : live.length ≤ L + j)]
      rw [show L + j - live.length = j by omega]
  have hsupp2 : ∀ i : Nat,
      (∀ k, k < (live ++ vs).length → i ≠ wrapIdx cap cv k) →
      writeSeq s.buf pv vs i = none := by
    intro i hi
    rw [List.length_append] at hi
    have hout : i < pv ∨ pv + vs.length ≤ i := by
      by_contra hcon
      push_neg at hcon
      have hj2 : i - pv < E - pv := by omega
      obtain ⟨hidx, _⟩ := hFactA (i - pv) hj2
      exact hi (L + (i - pv)) (by omega) (by omega)
    rw [writeSeq_out _ _ _ _ hout]
    exact hsupp i (fun k hk => hi k (by omega))
  refine ⟨(if E = cap then 0 else E), cv, (if E = cap then !pr else pr), cr,
    live ++ vs, ?_, hc, ?_, hcv, ?_, ?_, ?_, hlook2, hsupp2⟩
  · by_cases hEc : E = cap
    · simp only [if_pos hEc]
    · simp only [if_neg hEc]
  · split_ifs <;> omega
  · rw [hsent, List.append_assoc]
  · rw [List.length_append, ← hLdef, hlen]
    rcases hCL with ⟨hf, h1, h2⟩ | ⟨hf, h1, h2, h3⟩
    · subst hf
      by_cases hEc : E = cap
      · simp only [if_pos hEc]
        split_ifs with hx
        · exact absurd hx (by cases pr <;> simp)
        · omega
      · simp only [if_neg hEc]
        split_ifs with hx
        · omega
        · exact absurd trivial hx
    · have hEc : E ≠ cap := by omega
      simp only [if_neg hEc]
      split_ifs with hx
      · exact absurd hx hf
      · omega
  · rcases hCL with ⟨hf, h1, h2⟩ | ⟨hf, h1, h2, h3⟩
    · subst hf
      by_cases hEc : E = cap
      · simp only [if_pos hEc]
        split_ifs with hx
        · exact absurd hx (by cases pr <;> simp)
        · omega
      · simp only [if_neg hEc]
        split_ifs with hx
        · omega
        · exact absurd trivial hx
    · have hEc : E ≠ cap := by omega
      simp only [if_neg hEc]
      split_ifs with hx
      · exact absurd hx hf
      · omega

lemma bool_eq_not_of_ne {a b : Bool} (h : a ≠ b) : a = !b := by
  cases a <;> cases b <;> simp_all

lemma chanInv_cons {α : Type} (cap : Nat) (hcap0 : 1 ≤ cap)
    (hcap : cap ≤ position_mask)
    (s : ChanState α) (slots : Nat) (vs : List α) (a : acquisition)
    (hs1 : 1 ≤ slots) (hs2 : slots ≤ position_mask)
    (ha : acquire cap s.consPos s.prodPos 0 slots = .range a)
    (hlen : vs.length = a.end_ - a.begin)
    (hread : ∀ k, k < vs.length → s.buf (a.begin + k) = vs[k]?)
    (hinv : ChanInv cap s) :
    ChanInv cap ⟨s.prodPos, a.next, eraseSeq s.buf a.begin (a.end_ - a.begin),
      s.sent, s.recvd ++ vs⟩ := by
  obtain ⟨pv, cv, pr, cr, live, hp, hc, hpv, hcv, hsent, hL, hord, hlook, hsupp⟩ := hinv
  have hmask : position_mask = 2 ^ 30 - 1 := position_mask_eq
  rw [hp, hc] at ha
  have hnb : ¬ (cv = pv ∧ cr = pr) := by
    intro hb
    have hbl := (acquire_blocked_iff cap slots 0 cv pv cr pr false
      (by omega) (by omega) (Or.inl rfl)).mpr ⟨rfl, hb.1, Or.inl ⟨rfl, hb.2⟩⟩
    rw [ha] at hbl
    exact absurd hbl (by simp)
  have hA := acquire_range_eq cap slots 0 cv pv cr pr false a
    (by omega) (by omega) (by omega) (by omega) ha
  subst hA
  dsimp only [] at hlen hread ⊢
  set E := min (if pv ≤ cv then cap else pv) (cv + slots) with hE
  have hEb := range_bounds cap slots cv pv hcv hpv hs1
  rw [← hE] at hEb
  set L := live.length with hLdef
  set got := E - cv with hgotdef
  have hCL : (pr = cr ∧ cv < pv ∧ cv + L = pv ∧ E ≤ pv) ∨
      (pr ≠ cr ∧ pv ≤ cv ∧ cv + L = cap + pv) := by
    by_cases hf : pr = cr
    · rw [if_pos hf] at hL
      rw [if_pos hf] at hord
      have hcp : cv < pv := by
        rcases Nat.lt_or_ge cv pv with h1 | h1
        · exact h1
        · exact absurd ⟨by omega, hf.symm⟩ hnb
      have hEpv : E ≤ pv := by
        rw [hE, if_neg (by omega)]
        exact Nat.min_le_left _ _
      exact Or.inl ⟨hf, hcp, by omega, hEpv⟩
    · rw [if_neg hf] at hL
      rw [if_neg hf] at hord
      exact Or.inr ⟨hf, hord, by omega⟩
  have hgotL : got ≤ L := by
    rcases hCL with ⟨_, h1, h2, h3⟩ | ⟨_, h1, h2⟩ <;> omega
  have hfront : ∀ k, k < got → wrapIdx cap cv k = cv + k := by
    intro k hk
    unfold wrapIdx
    rcases hCL with ⟨_, h1, h2, h3⟩ | ⟨_, h1, h2⟩ <;> (split_ifs <;> omega)
  have hvs : vs = live.take got := by
    apply List.ext_getElem?
    intro n
    by_cases hn : n < got
    · have h1 := hread n (by omega)
      have h2 := hlook n (by omega)
      rw [hfront n hn] at h2
      rw [List.getElem?_take, if_pos hn, ← h1, ← h2]
    · rw [List.getElem?_eq_none (by omega : vs.length ≤ n),
        List.getElem?_eq_none
          (by rw [List.length_take]; omega : (live.take got).length ≤ n)]
  set cv2 := if E = cap then 0 else E with hcv2
  have hshift : ∀ k, k < L - got → wrapIdx cap cv (got + k) = wrapIdx cap cv2 k := by
    intro k hk
    unfold wrapIdx
    rw [hcv2]
    rcases hCL with ⟨_, h1, h2, h3⟩ | ⟨_, h1, h2⟩ <;> (split_ifs <;> omega)
  have hlook2 : ∀ k, k < (live.drop got).length →
      eraseSeq s.buf cv got (wrapIdx cap cv2 k) = (live.drop got)[k]? := by
    intro k hk
    rw [List.length_drop] at hk
    rw [← hshift k hk]
    have hout : ¬ (cv ≤ wrapIdx cap cv (got + k) ∧
        wrapIdx cap cv (got + k) < cv + got) := by
      unfold wrapIdx
      rcases hCL with ⟨_, h1, h2, h3⟩ | ⟨_, h1, h2⟩ <;> (split_ifs <;> omega)
    simp only [eraseSeq]
    rw [if_neg hout]
    have h2 := hlook (got + k) (by omega)
    rw [h2, List.getElem?_drop]
  have hsupp2 : ∀ i, (∀ k, k < (live.drop got).length → i ≠ wrapIdx cap cv2 k) →
      eraseSeq s.buf cv got i = none := by
    intro i hi
    rw [List.length_drop] at hi
    simp only [eraseSeq]
    by_cases hin : cv ≤ i ∧ i < cv + got
    · rw [if_pos hin]
    · rw [if_neg hin]
      apply hsupp
      intro k hk
      by_cases hkg : k < got
      · rw [hfront k hkg]
        omega
      · have hk2 : k - got < L - got := by omega
        rw [show k = got + (k - got) by omega, hshift (k - got) hk2]
        exact hi (k - got) hk2
  refine ⟨pv, cv2, pr, (if E = cap then !cr else cr), live.drop got,
    hp, ?_, hpv, ?_, ?_, ?_, ?_, hlook2, hsupp2⟩
  · rw [hcv2]
    by_cases hEc : E = cap
    · simp only [if_pos hEc]
    · simp only [if_neg hEc]
  · rw [hcv2]
    split_ifs <;> omega
  · rw [hsent, hvs, List.append_assoc, List.take_append_drop]
  · rw [List.length_drop, ← hLdef]
    rcases hCL with ⟨hf, h1, h2, h3⟩ | ⟨hf, h1, h2⟩
    · have hEc : E ≠ cap := by omega
      rw [hcv2]
      simp only [if_neg hEc]
      split_ifs with hx <;>
        first
        | omega
        | exact absurd hf hx
    · by_cases hEc : E = cap
      · rw [hcv2]
        simp only [if_pos hEc]
        split_ifs with hx <;>
          first
          | omega
          | exact absurd (bool_eq_not_of_ne hf) hx
      · rw [hcv2]
        simp only [if_neg hEc]
        split_ifs with hx <;>
          first
          | exact absurd hx hf
          | omega
  · rcases hCL with ⟨hf, h1, h2, h3⟩ | ⟨hf, h1, h2⟩
    · have hEc : E ≠ cap := by omega
      rw [hcv2]
      simp only [if_neg hEc]
      split_ifs with hx <;>
        first
        | omega
        | exact absurd hf hx
    · by_cases hEc : E = cap
      · rw [hcv2]
        simp only [if_pos hEc]
        split_ifs with hx <;>
          first
          | omega
          | exact absurd (bool_eq_not_of_ne hf) hx
      · rw [hcv2]
        simp only [if_neg hEc]
        split_ifs with hx <;>
          first
          | exact absurd hx hf
          | omega

lemma reachable_inv {α : Type} (cap : Nat) (hcap0 : 1 ≤ cap)
    (hcap : cap ≤ position_mask) {s : ChanState α}
    (h : Reachable cap s) : ChanInv cap s := by
  induction h with
  | init =>
    refine ⟨0, 0, false, false, [], rfl, rfl, by omega, by omega, rfl,
      by simp, by simp, ?_, ?_⟩
    · intro k hk
      simp at hk
    · intro i _
      rfl
  | step hr hstep ih =>
    cases hstep with
    | prod slots vs a hs1 hs2 ha hlen =>
      exact chanInv_prod cap hcap0 hcap _ slots vs a hs1 hs2 ha hlen ih
    | cons slots vs a hs1 hs2 ha hlen hread =>
      exact chanInv_cons cap hcap0 hcap _ slots vs a hs1 hs2 ha hlen hread ih

/-- Number of constructed-but-unread elements resident in the ring buffer. -/
def liveCells (cap : Nat) (s : ChanState α) : Nat :=
  ((List.range cap).filter (fun i => (s.buf i).isSome)).length

lemma logicalDist_pack (cap pv cv : Nat) (pr cr : Bool) (hpv : pv < 2 ^ 30)
    (hcv : cv < 2 ^ 30) :
    logicalDist cap (pack pv pr false) (pack cv cr false) =
      if pr = cr then pv - cv else cap + pv - cv := by
  unfold logicalDist
  rw [pack_land_rev _ _ _ hpv, pack_land_rev _ _ _ hcv,
    pack_land_mask _ _ _ hpv, pack_land_mask _ _ _ hcv]
  have hiff : (rbit pr = rbit cr) ↔ (pr = cr) := by
    cases pr <;> cases cr <;> simp [rbit] <;> decide
  simp only [hiff]

lemma liveCells_eq {α : Type} (cap : Nat) (s : ChanState α) (cv : Nat)
    (live : List α) (hcv : cv < cap) (hlen : live.length ≤ cap)
    (hlook : ∀ k, k < live.length → s.buf (wrapIdx cap cv k) = live[k]?)
    (hsupp : ∀ i, (∀ k, k < live.length → i ≠ wrapIdx cap cv k) → s.buf i = none) :
    liveCells cap s = live.length := by
  have hiff : ∀ i, (s.buf i).isSome = true ↔
      ∃ k, k < live.length ∧ wrapIdx cap cv k = i := by
    intro i
    constructor
    · intro hsome
      by_contra hcon
      push_neg at hcon
      have hnone := hsupp i (fun k hk => (hcon k hk).symm)
      rw [hnone] at hsome
      simp at hsome
    · rintro ⟨k, hk, rfl⟩
      rw [hlook k hk, List.getElem?_eq_getElem hk]
      rfl
  have hnd1 : ((List.range cap).filter (fun i => (s.buf i).isSome)).Nodup :=
    (List.nodup_range cap).filter _
  have hinj : ∀ x ∈ List.range live.length, ∀ y ∈ List.range live.length,
      wrapIdx cap cv x = wrapIdx cap cv y → x = y := by
    intro x hx y hy hxy
    rw [List.mem_range] at hx hy
    unfold wrapIdx at hxy
    split_ifs at hxy <;> omega
  have hnd2 : ((List.range live.length).map (wrapIdx cap cv)).Nodup :=
    List.Nodup.map_on hinj (List.nodup_range _)
  have hmem : ∀ i, i ∈ (List.range cap).filter (fun i => (s.buf i).isSome) ↔
      i ∈ (List.range live.length).map (wrapIdx cap cv) := by
    intro i
    rw [List.mem_filter, List.mem_range, List.mem_map]
    constructor
    · rintro ⟨hicap, hsome⟩
      obtain ⟨k, hk, hkeq⟩ := (hiff i).mp hsome
      exact ⟨k, List.mem_range.mpr hk, hkeq⟩
    · rintro ⟨k, hk, rfl⟩
      rw [List.mem_range] at hk
      refine ⟨?_, (hiff _).mpr ⟨k, hk, rfl⟩⟩
      unfold wrapIdx
      split_ifs <;> omega
  have hperm := (List.perm_ext_iff_of_nodup hnd1 hnd2).mpr hmem
  have hlength := hperm.length_eq
  rw [List.length_map, List.length_range] at hlength
  exact hlength

/-- Claim C4: in every reachable state of a channel of capacity `cap`
(reached by any sequence of successful producer and consumer acquire/release
operations from both positions zero), the number of constructed-but-unread
elements in the buffer equals the logical distance from the consumer position
to the producer position (value-field difference, adjusted by `cap` when the
revolution flags differ), that distance never exceeds `cap`, and both
position words' value fields lie in `[0, cap)`. -/
theorem c4_live_count {α : Type} (cap : Nat) (s : ChanState α)
    (hcap0 : 1 ≤ cap) (hcap : cap ≤ position_mask)
    (h : Reachable cap s) :
    liveCells cap s = logicalDist cap s.prodPos s.consPos ∧
    logicalDist cap s.prodPos s.consPos ≤ cap ∧
    (s.prodPos &&& position_mask) < cap ∧
    (s.consPos &&& position_mask) < cap := by
  obtain ⟨pv, cv, pr, cr, live, hp, hc, hpv, hcv, hsent, hL, hord, hlook, hsupp⟩ :=
    reachable_inv cap hcap0 hcap h
  have hmask : position_mask = 2 ^ 30 - 1 := position_mask_eq
  have hlen_le : live.length ≤ cap := by
    by_cases hx : pr = cr
    · rw [if_pos hx] at hord
      rw [hL, if_pos hx]
      omega
    · rw [if_neg hx] at hord
      rw [hL, if_neg hx]
      omega
  have hdist : logicalDist cap s.prodPos s.consPos = live.length := by
    rw [hp, hc, logicalDist_pack cap pv cv pr cr (by omega) (by omega), ← hL]
  refine ⟨?_, ?_, ?_, ?_⟩
  · rw [hdist]
    exact liveCells_eq cap s cv live hcv hlen_le hlook hsupp
  · rw [hdist]
    exact hlen_le
  · rw [hp, pack_land_mask _ _ _ (by omega)]
    exact hpv
  · rw [hc, pack_land_mask _ _ _ (by omega)]
    exact hcv

/-- Claim C7: under the interleaving model of the two threads (any sequence of
committed producer and consumer operations, each an acquire/transfer/release
of the source), the consumer observes exactly the values the producer sent and
in the same order: the received list is always the prefix of the sent list of
its length — no value lost, duplicated, corrupted or reordered, including
across ring-buffer wraparound — and once the two positions coincide (all data
drained) the received list equals the sent list. -/
theorem c7_fifo_order {α : Type} (cap : Nat) (s : ChanState α)
    (hcap0 : 1 ≤ cap) (hcap : cap ≤ position_mask)
    (h : Reachable cap s) :
    s.sent.take s.recvd.length = s.recvd ∧
    (s.prodPos = s.consPos → s.recvd = s.sent) := by
  obtain ⟨pv, cv, pr, cr, live, hp, hc, hpv, hcv, hsent, hL, hord, hlook, hsupp⟩ :=
    reachable_inv cap hcap0 hcap h
  have hmask : position_mask = 2 ^ 30 - 1 := position_mask_eq
  constructor
  · rw [hsent, List.take_left]
  · intro heq
    rw [hp, hc] at heq
    have h2 := (pack_inj (by omega) (by omega)).mp heq
    have hlive : live.length = 0 := by
      rw [hL, if_pos h2.2.1]
      omega
    rw [hsent, List.length_eq_zero.mp hlive, List.append_nil]

lemma reach_example :
    Reachable 2 (⟨1, 0, writeSeq (fun _ => (none : Option Nat)) 0 [7],
      [7], []⟩ : ChanState Nat) :=
  Reachable.step Reachable.init
    (Step.prod (initChan Nat) 1 [7] ⟨0, 1, 1⟩ (by norm_num) (by decide) rfl rfl)

/-- Witness for C4: after one producer step placing the value 7 into a
capacity-2 channel, one cell is live and the logical distance is one. -/
theorem c4_witness :
    liveCells 2 (⟨1, 0, writeSeq (fun _ => (none : Option Nat)) 0 [7],
        [7], []⟩ : ChanState Nat) =
      logicalDist 2 1 0 ∧
    logicalDist 2 1 0 ≤ 2 ∧
    ((1 : Nat) &&& position_mask) < 2 ∧
    ((0 : Nat) &&& position_mask) < 2 :=
  c4_live_count 2 _ (by norm_num) (by decide) reach_example

/-- Witness for C7: after one producer step placing the value 7 into a
capacity-2 channel, the received list is the empty prefix of the sent list,
and the positions differ so the drained clause is vacuous. -/
theorem c7_witness :
    ([7] : List Nat).take ([] : List Nat).length = ([] : List Nat) ∧
    ((1 : Nat) = 0 → ([] : List Nat) = [7]) :=
  c7_fifo_order 2 _ (by norm_num) (by decide) reach_example
